import Mathlib

/-!
Shallow embedding of `src/patternMatching.c`, a DNA pattern matcher with a
brute-force scanner and a Karp-Rabin (rolling hash) scanner, together with
proofs of the specified properties.

Modelling conventions:
* A C character buffer is a `List Nat` of byte values; the read `buf[i]`
  becomes `buf.getD i 0`.  Under the stated preconditions the core only
  reads in-bounds indices, so the default is never observable.
* C `long long` arithmetic is `Int` (no intermediate in the source can
  reach `2^63` for byte-valued symbols, so `Int` is exact), and the C `%`
  operator on `long long` is truncated-division remainder, i.e. `Int.tmod`.
* C `int` lengths are `Nat`.  The loop guard `i <= textLen - patternLen`
  is signed `int` arithmetic in C, so a scan loop runs exactly
  `textLen - patternLen + 1` times when `patternLen ≤ textLen` and not at
  all otherwise; each C loop becomes a structurally recursive function on
  the exact remaining iteration count.
-/

/-- C macro `MOD` (`#define MOD INT_MAX`, patternMatching.c line 23):
the modulus of the rolling hash, `2^31 - 1`. -/
def MOD : Int := 2147483647

/-- The C `%` operator on `long long`: remainder of truncated division. -/
def cmod (a b : Int) : Int := Int.tmod a b

/-- Loop body of C `calculateHash` (lines 105-110).  `calcStep str i hash base`
is the C loop started at index `i` (the loop runs `i` down to `0`, updating
`hash` each step and doubling `base` at every step except the last). -/
def calcStep (str : List Nat) : Nat → Int → Int → Int
  | 0, hash, base => cmod (hash + cmod ((str.getD 0 0 : Int) * base) MOD) MOD
  | i + 1, hash, base =>
      calcStep str i (cmod (hash + cmod ((str.getD (i + 1) 0 : Int) * base) MOD) MOD)
        (cmod (base * 2) MOD)

/-- C function `calculateHash` (lines 99-113): hash of `str[0..len)`,
`(str[0]*2^(len-1) + ... + str[len-1]*2^0) % MOD` with stepwise reduction. -/
def calculateHash (str : List Nat) (len : Nat) : Int :=
  match len with
  | 0 => 0
  | l + 1 => calcStep str l 0 1

/-- The `powerOf2` loop of C `rehash` (lines 127-130): `2^n mod MOD`
computed by repeated doubling. -/
def powLoop : Nat → Int
  | 0 => 1
  | n + 1 => cmod (powLoop n * 2) MOD

/-- Lines 133-136 of C `rehash`: subtract the dropped character's
contribution and add `MOD` back if the difference went negative. -/
def rehashSub (oldChar : Nat) (oldHash : Int) (patternLen : Nat) : Int :=
  if oldHash - cmod ((oldChar : Int) * powLoop (patternLen - 1)) MOD < 0 then
    oldHash - cmod ((oldChar : Int) * powLoop (patternLen - 1)) MOD + MOD
  else oldHash - cmod ((oldChar : Int) * powLoop (patternLen - 1)) MOD

/-- C function `rehash` (lines 123-140): slide the hash window one step. -/
def rehash (oldChar : Nat) (oldHash : Int) (newChar : Nat) (patternLen : Nat) : Int :=
  cmod (rehashSub oldChar oldHash patternLen * 2 + (newChar : Int)) MOD

/-- Loop of C `verifyMatch` (lines 152-157) at index `i`, with `n`
iterations remaining (`n = patternLen - i`). -/
def vmLoop (text pattern : List Nat) (pos : Nat) : Nat → Nat → Nat
  | 0, _ => 1
  | n + 1, i =>
      if text.getD (pos + i) 0 ≠ pattern.getD i 0 then 0
      else vmLoop text pattern pos n (i + 1)

/-- C function `verifyMatch` (lines 150-158): 1 if `pattern` occurs in
`text` at offset `pos`, else 0. -/
def verifyMatch (text pattern : List Nat) (pos patternLen : Nat) : Nat :=
  vmLoop text pattern pos patternLen 0

/-- Inner `while` of C `bruteForceSearch` (lines 80-82): advance `j` while
it is below `patternLen` and the characters agree; `n` is the remaining
bound `patternLen - j`.  Returns the final value of `j`. -/
def bfWhile (text pattern : List Nat) (i : Nat) : Nat → Nat → Nat
  | 0, j => j
  | n + 1, j =>
      if text.getD (i + j) 0 = pattern.getD j 0 then bfWhile text pattern i n (j + 1)
      else j

/-- Outer `for` of C `bruteForceSearch` (lines 76-88) at offset `i`, with
`n` candidate offsets left to try. -/
def bfLoop (text pattern : List Nat) (patternLen : Nat) : Nat → Nat → Nat
  | 0, _ => 0
  | n + 1, i =>
      (if bfWhile text pattern i patternLen 0 = patternLen then 1 else 0) +
        bfLoop text pattern patternLen n (i + 1)

/-- C function `bruteForceSearch` (lines 71-91).  The guard
`i <= textLen - patternLen` is `int` arithmetic, so the loop visits
offsets `0 .. textLen - patternLen` when `patternLen ≤ textLen` and runs
not at all otherwise. -/
def bruteForceSearch (text pattern : List Nat) (textLen patternLen : Nat) : Nat :=
  if patternLen ≤ textLen then bfLoop text pattern patternLen (textLen - patternLen + 1) 0
  else 0

/-- Rolling loop of C `karpRabinSearch` (lines 184-190) at offset `i`, with
`n` offsets left (`i` runs from 1 to `textLen - patternLen`). -/
def krLoop (text pattern : List Nat) (patternLen : Nat) (patternHash : Int) :
    Nat → Int → Nat → Nat
  | 0, _, _ => 0
  | n + 1, textHash, i =>
      let newHash :=
        rehash (text.getD (i - 1) 0) textHash (text.getD (i + patternLen - 1) 0) patternLen
      (if patternHash = newHash ∧ verifyMatch text pattern i patternLen = 1 then 1 else 0) +
        krLoop text pattern patternLen patternHash n newHash (i + 1)

/-- C function `karpRabinSearch` (lines 168-193). -/
def karpRabinSearch (text pattern : List Nat) (textLen patternLen : Nat) : Nat :=
  if patternLen > textLen then 0
  else
    let patternHash := calculateHash pattern patternLen
    let textHash := calculateHash text patternLen
    (if patternHash = textHash ∧ verifyMatch text pattern 0 patternLen = 1 then 1 else 0) +
      krLoop text pattern patternLen patternHash (textLen - patternLen) textHash 1

/-- Specification-side occurrence count, written from the spec's words:
"the number of starting offsets i ∈ [0, T−P] such that text[i..i+P)
equals pattern element-wise" (and 0 when the offset range is empty).
Used to compare the implementation against the spec (claim C3). -/
def matchCount (text pattern : List Nat) (textLen patternLen : Nat) : Nat :=
  if patternLen ≤ textLen then
    (List.range (textLen - patternLen + 1)).countP
      (fun i => decide (∀ j < patternLen, text.getD (i + j) 0 = pattern.getD j 0))
  else 0

/-- Leaf of the divisor search: over the interval `[lo, lo + len)` of
candidate divisors with `len ≤ 1`, report whether none divides `n`. -/
def noFacLeaf (n lo len : Nat) : Bool :=
  len == 0 || (len == 1 && n % lo != 0)

/-- Kernel-friendly balanced divisor search: `true` iff no `d` with
`lo ≤ d < lo + len` divides `n`, where `f` bounds the depth of the
interval splitting (sound for any `f`).  Used to certify that the
modulus `MOD` is prime. -/
def noFac (n : Nat) : Nat → Nat → Nat → Bool
  | 0, lo, len => noFacLeaf n lo len
  | f + 1, lo, len =>
      if len ≤ 1 then noFacLeaf n lo len
      else noFac n f lo (len / 2) && noFac n f (lo + len / 2) (len - len / 2)

/-! ### Arithmetic layer: characterizing the rolling hash -/

theorem MOD_pos : (0 : Int) < MOD := by decide

theorem cmod_eq_emod {a : Int} (h : 0 ≤ a) : cmod a MOD = a % MOD :=
  Int.tmod_eq_emod h (by decide)

theorem emod_modEq (a : Int) : a % MOD ≡ a [ZMOD MOD] :=
  Int.emod_emod_of_dvd a dvd_rfl

theorem powLoop_spec : ∀ n : Nat, powLoop n = (2 : Int) ^ n % MOD
  | 0 => by decide
  | n + 1 => by
      rw [powLoop, powLoop_spec n,
        cmod_eq_emod (mul_nonneg (Int.emod_nonneg _ (by decide)) (by decide)), pow_succ]
      exact (emod_modEq _).mul_right 2

theorem powLoop_nonneg (n : Nat) : 0 ≤ powLoop n := by
  rw [powLoop_spec]
  exact Int.emod_nonneg _ (by decide)

/-- Invariant of the `calculateHash` loop: starting at index `i` with
accumulator `hash` and weight `base`, the loop returns the reduction of
`hash + base * Σ_(k ≤ i) str[k] * 2^(i-k)` modulo `MOD`. -/
theorem calcStep_spec (str : List Nat) :
    ∀ (i : Nat) (hash base : Int), 0 ≤ hash → 0 ≤ base →
      calcStep str i hash base =
        (hash + base * ∑ k ∈ Finset.range (i + 1), (str.getD k 0 : Int) * 2 ^ (i - k)) % MOD
  | 0, hash, base, hh, hb => by
      rw [calcStep, cmod_eq_emod (mul_nonneg (Int.natCast_nonneg _) hb),
        cmod_eq_emod (add_nonneg hh (Int.emod_nonneg _ (by decide)))]
      have h1 : (str.getD 0 0 : Int) * base % MOD ≡ (str.getD 0 0 : Int) * base [ZMOD MOD] :=
        emod_modEq _
      calc (hash + (str.getD 0 0 : Int) * base % MOD) % MOD
          = (hash + (str.getD 0 0 : Int) * base) % MOD := h1.add_left hash
        _ = _ := by rw [Finset.sum_range_one]; ring_nf
  | i + 1, hash, base, hh, hb => by
      have hc : (0 : Int) ≤ (str.getD (i + 1) 0 : Int) * base :=
        mul_nonneg (Int.natCast_nonneg _) hb
      have hh' : (0 : Int) ≤ cmod (hash + cmod ((str.getD (i + 1) 0 : Int) * base) MOD) MOD := by
        rw [cmod_eq_emod hc, cmod_eq_emod (add_nonneg hh (Int.emod_nonneg _ (by decide)))]
        exact Int.emod_nonneg _ (by decide)
      have hb' : (0 : Int) ≤ cmod (base * 2) MOD := by
        rw [cmod_eq_emod (mul_nonneg hb (by decide))]
        exact Int.emod_nonneg _ (by decide)
      rw [calcStep, calcStep_spec str i _ _ hh' hb',
        cmod_eq_emod hc, cmod_eq_emod (add_nonneg hh (Int.emod_nonneg _ (by decide))),
        cmod_eq_emod (mul_nonneg hb (by decide))]
      have h1 : (hash + (str.getD (i + 1) 0 : Int) * base % MOD) % MOD
          ≡ hash + (str.getD (i + 1) 0 : Int) * base [ZMOD MOD] :=
        (emod_modEq _).trans ((emod_modEq ((str.getD (i + 1) 0 : Int) * base)).add_left hash)
      have h2 : base * 2 % MOD ≡ base * 2 [ZMOD MOD] := emod_modEq _
      have h3 : ((hash + (str.getD (i + 1) 0 : Int) * base % MOD) % MOD
            + base * 2 % MOD * ∑ k ∈ Finset.range (i + 1), (str.getD k 0 : Int) * 2 ^ (i - k))
          ≡ (hash + (str.getD (i + 1) 0 : Int) * base
            + base * 2 * ∑ k ∈ Finset.range (i + 1), (str.getD k 0 : Int) * 2 ^ (i - k))
            [ZMOD MOD] :=
        h1.add (h2.mul_right _)
      rw [h3.eq]
      congr 1
      have hterm : ∀ k ∈ Finset.range (i + 1),
          base * ((str.getD k 0 : Int) * 2 ^ (i + 1 - k))
            = base * 2 * ((str.getD k 0 : Int) * 2 ^ (i - k)) := by
        intro k hk
        have hk' : k ≤ i := Nat.lt_succ_iff.mp (Finset.mem_range.mp hk)
        have he : i + 1 - k = (i - k) + 1 := by omega
        rw [he, pow_succ]
        ring
      rw [Finset.sum_range_succ (fun k => (str.getD k 0 : Int) * 2 ^ (i + 1 - k)) (i + 1),
        Nat.sub_self, pow_zero, mul_one, mul_add, Finset.mul_sum, Finset.mul_sum,
        Finset.sum_congr rfl hterm]
      ring

/-- `calculateHash str len` is the base-2 weighted sum of `str[0..len)`
reduced modulo `MOD`. -/
theorem calculateHash_spec (str : List Nat) (len : Nat) :
    calculateHash str len =
      (∑ k ∈ Finset.range len, (str.getD k 0 : Int) * 2 ^ (len - 1 - k)) % MOD := by
  cases len with
  | zero => simp [calculateHash]
  | succ l =>
      rw [calculateHash, calcStep_spec str l 0 1 le_rfl zero_le_one]
      simp [Nat.add_sub_cancel]

theorem calculateHash_bounds (str : List Nat) (len : Nat) :
    0 ≤ calculateHash str len ∧ calculateHash str len < MOD := by
  rw [calculateHash_spec]
  exact ⟨Int.emod_nonneg _ (by decide), Int.emod_lt_of_pos _ (by decide)⟩

/-- The add-`MOD`-back intermediate of `rehash` is non-negative and is
congruent to `oldHash - oldChar * 2^(patternLen-1)` modulo `MOD`. -/
theorem rehashSub_spec (a : Nat) (h : Int) (L : Nat) (hh : 0 ≤ h) :
    0 ≤ rehashSub a h L ∧ rehashSub a h L ≡ h - (a : Int) * 2 ^ (L - 1) [ZMOD MOD] := by
  unfold rehashSub
  rw [cmod_eq_emod (mul_nonneg (Int.natCast_nonneg a) (powLoop_nonneg _))]
  have h0 : 0 ≤ (a : Int) * powLoop (L - 1) % MOD := Int.emod_nonneg _ (by decide)
  have h1 : (a : Int) * powLoop (L - 1) % MOD < MOD := Int.emod_lt_of_pos _ (by decide)
  have hcong : (a : Int) * powLoop (L - 1) % MOD ≡ (a : Int) * 2 ^ (L - 1) [ZMOD MOD] := by
    rw [powLoop_spec]
    exact (emod_modEq _).trans ((emod_modEq ((2 : Int) ^ (L - 1))).mul_left (a : Int))
  constructor
  · split
    · linarith
    · linarith
  · have hsub : h - (a : Int) * powLoop (L - 1) % MOD ≡ h - (a : Int) * 2 ^ (L - 1) [ZMOD MOD] :=
      hcong.sub_left h
    split
    · calc (h - (a : Int) * powLoop (L - 1) % MOD + MOD) % MOD
          = (h - (a : Int) * powLoop (L - 1) % MOD + MOD * 1) % MOD := by rw [mul_one]
        _ = (h - (a : Int) * powLoop (L - 1) % MOD) % MOD := Int.add_mul_emod_self_left _ _ _
        _ = (h - (a : Int) * 2 ^ (L - 1)) % MOD := hsub
    · exact hsub

/-- `rehash` computes `((oldHash - oldChar * 2^(L-1)) * 2 + newChar) mod MOD`. -/
theorem rehash_spec (a : Nat) (h : Int) (b : Nat) (L : Nat) (hh : 0 ≤ h) :
    rehash a h b L = ((h - (a : Int) * 2 ^ (L - 1)) * 2 + (b : Int)) % MOD := by
  obtain ⟨h0, hcong⟩ := rehashSub_spec a h L hh
  unfold rehash
  rw [cmod_eq_emod (add_nonneg (mul_nonneg h0 (by decide)) (Int.natCast_nonneg b))]
  exact ((hcong.mul_right 2).add_right (b : Int))

theorem rehash_bounds (a : Nat) (h : Int) (b : Nat) (L : Nat) (hh : 0 ≤ h) :
    0 ≤ rehash a h b L ∧ rehash a h b L < MOD := by
  rw [rehash_spec a h b L hh]
  exact ⟨Int.emod_nonneg _ (by decide), Int.emod_lt_of_pos _ (by decide)⟩

theorem getD_drop (u : List Nat) (i k : Nat) : (u.drop i).getD k 0 = u.getD (i + k) 0 := by
  simp [List.getD_eq_getElem?_getD, List.getElem?_drop]

/-- Pure-arithmetic core of the rolling identity: shifting the window by
one position relates the two weighted sums. -/
theorem roll_sum (u : List Nat) (l : Nat) :
    (∑ k ∈ Finset.range (l + 1), (u.getD k 0 : Int) * 2 ^ (l - k)
          - (u.getD 0 0 : Int) * 2 ^ l) * 2 + (u.getD (l + 1) 0 : Int) =
      ∑ k ∈ Finset.range (l + 1), (u.getD (1 + k) 0 : Int) * 2 ^ (l - k) := by
  rw [Finset.sum_range_succ' (fun k => (u.getD k 0 : Int) * 2 ^ (l - k)) l]
  simp only [Nat.sub_zero]
  rw [add_sub_cancel_right,
    Finset.sum_range_succ (fun k => (u.getD (1 + k) 0 : Int) * 2 ^ (l - k)) l,
    Nat.sub_self, pow_zero, mul_one, Finset.sum_mul]
  congr 1
  · refine Finset.sum_congr rfl fun k hk => ?_
    have hk' : k < l := Finset.mem_range.mp hk
    have he : l - (k + 1) + 1 = l - k := by omega
    rw [mul_assoc, ← pow_succ, he, Nat.add_comm 1 k]
  · rw [Nat.add_comm]

/-- The incremental update reproduces the full hash of the window shifted
right by one: sliding off `u[0]` and on `u[L]` turns the hash of
`u[0..L)` into the hash of `u[1..L+1)`. -/
theorem rehash_roll (u : List Nat) (L : Nat) (hL : 1 ≤ L) :
    rehash (u.getD 0 0) (calculateHash u L) (u.getD L 0) L = calculateHash (u.drop 1) L := by
  obtain ⟨l, rfl⟩ : ∃ l, L = l + 1 := ⟨L - 1, by omega⟩
  rw [rehash_spec _ _ _ _ (calculateHash_bounds u (l + 1)).1]
  rw [calculateHash_spec, calculateHash_spec]
  simp only [Nat.add_sub_cancel, getD_drop]
  have hmod : (∑ k ∈ Finset.range (l + 1), (u.getD k 0 : Int) * 2 ^ (l - k)) % MOD
      ≡ ∑ k ∈ Finset.range (l + 1), (u.getD k 0 : Int) * 2 ^ (l - k) [ZMOD MOD] :=
    emod_modEq _
  calc (((∑ k ∈ Finset.range (l + 1), (u.getD k 0 : Int) * 2 ^ (l - k)) % MOD
          - (u.getD 0 0 : Int) * 2 ^ l) * 2 + (u.getD (l + 1) 0 : Int)) % MOD
      = ((∑ k ∈ Finset.range (l + 1), (u.getD k 0 : Int) * 2 ^ (l - k)
          - (u.getD 0 0 : Int) * 2 ^ l) * 2 + (u.getD (l + 1) 0 : Int)) % MOD :=
        (((hmod.sub_right _).mul_right 2).add_right _)
    _ = _ := by rw [roll_sum]

/-! ### Loop layer: characterizing the two scanners -/

theorem vmLoop_eq_one_iff (t p : List Nat) (pos : Nat) :
    ∀ n i, (vmLoop t p pos n i = 1 ↔
      ∀ k, k < n → t.getD (pos + (i + k)) 0 = p.getD (i + k) 0)
  | 0, i => by simp [vmLoop]
  | n + 1, i => by
      rw [vmLoop]
      by_cases hc : t.getD (pos + i) 0 = p.getD i 0
      · rw [if_neg (not_not_intro hc), vmLoop_eq_one_iff t p pos n (i + 1)]
        constructor
        · intro hrec k hk
          cases k with
          | zero => simpa using hc
          | succ k' =>
              have h1 := hrec k' (Nat.lt_of_succ_lt_succ hk)
              have h2 : i + 1 + k' = i + (k' + 1) := by omega
              rwa [h2] at h1
        · intro hall k hk
          have h1 := hall (k + 1) (Nat.succ_lt_succ hk)
          have h2 : i + (k + 1) = i + 1 + k := by omega
          rwa [h2] at h1
      · rw [if_pos hc]
        constructor
        · intro h01
          exact absurd h01 (by decide)
        · intro hall
          have h0 := hall 0 (Nat.succ_pos n)
          simp only [Nat.add_zero] at h0
          exact absurd h0 hc

theorem verifyMatch_eq_one_iff (t p : List Nat) (pos P : Nat) :
    verifyMatch t p pos P = 1 ↔ ∀ k, k < P → t.getD (pos + k) 0 = p.getD k 0 := by
  unfold verifyMatch
  rw [vmLoop_eq_one_iff t p pos P 0]
  simp only [Nat.zero_add]

theorem bfWhile_eq_iff (t p : List Nat) (i : Nat) :
    ∀ n j, (bfWhile t p i n j = j + n ↔
      ∀ k, k < n → t.getD (i + (j + k)) 0 = p.getD (j + k) 0)
  | 0, j => by simp [bfWhile]
  | n + 1, j => by
      rw [bfWhile]
      by_cases hc : t.getD (i + j) 0 = p.getD j 0
      · rw [if_pos hc]
        have hcomm : j + (n + 1) = (j + 1) + n := by omega
        rw [hcomm, bfWhile_eq_iff t p i n (j + 1)]
        constructor
        · intro hrec k hk
          cases k with
          | zero => simpa using hc
          | succ k' =>
              have h1 := hrec k' (Nat.lt_of_succ_lt_succ hk)
              have h2 : j + 1 + k' = j + (k' + 1) := by omega
              rwa [h2] at h1
        · intro hall k hk
          have h1 := hall (k + 1) (Nat.succ_lt_succ hk)
          have h2 : j + (k + 1) = j + 1 + k := by omega
          rwa [h2] at h1
      · rw [if_neg hc]
        constructor
        · intro hj
          omega
        · intro hall
          have h0 := hall 0 (Nat.succ_pos n)
          simp only [Nat.add_zero] at h0
          exact absurd h0 hc

/-- The inner `while` of the brute-force scanner reaches `j = patternLen`
exactly when the pattern occurs at offset `i`. -/
theorem bfWhile_match_iff (t p : List Nat) (i P : Nat) :
    bfWhile t p i P 0 = P ↔ ∀ k, k < P → t.getD (i + k) 0 = p.getD k 0 := by
  have h := bfWhile_eq_iff t p i P 0
  simpa using h

theorem bfLoop_countP (t p : List Nat) (P : Nat) :
    ∀ n i, bfLoop t p P n i =
      (List.range' i n).countP fun m => bfWhile t p m P 0 == P
  | 0, i => by simp [bfLoop]
  | n + 1, i => by
      rw [bfLoop, List.range'_succ, List.countP_cons, bfLoop_countP t p P n (i + 1)]
      by_cases hb : bfWhile t p i P 0 = P
      · simp [hb, Nat.add_comm]
      · simp [hb, Nat.add_comm]

/-- C3 core: the brute-force scanner computes the specification count. -/
theorem bf_count (t p : List Nat) (T P : Nat) :
    bruteForceSearch t p T P = matchCount t p T P := by
  unfold bruteForceSearch matchCount
  by_cases hPT : P ≤ T
  · rw [if_pos hPT, if_pos hPT, bfLoop_countP, List.range_eq_range']
    refine List.countP_congr fun m _ => ?_
    simp only [beq_iff_eq, decide_eq_true_eq]
    exact bfWhile_match_iff t p m P
  · rw [if_neg hPT, if_neg hPT]

/-- Per-offset agreement of the Karp-Rabin acceptance test with plain
occurrence: the verifier alone decides, and an occurrence forces the
fingerprints to agree. -/
theorem kr_cond_iff (t p : List Nat) (P m : Nat) :
    (calculateHash p P = calculateHash (t.drop m) P ∧ verifyMatch t p m P = 1) ↔
      ∀ k, k < P → t.getD (m + k) 0 = p.getD k 0 := by
  constructor
  · intro hand
    exact (verifyMatch_eq_one_iff t p m P).mp hand.2
  · intro hall
    refine ⟨?_, (verifyMatch_eq_one_iff t p m P).mpr hall⟩
    rw [calculateHash_spec, calculateHash_spec]
    congr 1
    refine Finset.sum_congr rfl fun k hk => ?_
    rw [getD_drop, hall k (Finset.mem_range.mp hk)]

theorem krLoop_countP (t p : List Nat) (P : Nat) (hP : 1 ≤ P) :
    ∀ n i, 1 ≤ i →
      krLoop t p P (calculateHash p P) n (calculateHash (t.drop (i - 1)) P) i =
        (List.range' i n).countP fun m =>
          decide (calculateHash p P = calculateHash (t.drop m) P ∧ verifyMatch t p m P = 1)
  | 0, i, hi => by simp [krLoop]
  | n + 1, i, hi => by
      simp only [krLoop]
      have hu0 : (t.drop (i - 1)).getD 0 0 = t.getD (i - 1) 0 := by
        rw [getD_drop, Nat.add_zero]
      have huP : (t.drop (i - 1)).getD P 0 = t.getD (i + P - 1) 0 := by
        rw [getD_drop]
        congr 1
        omega
      have hroll := rehash_roll (t.drop (i - 1)) P hP
      rw [hu0, huP] at hroll
      have hdd : (t.drop (i - 1)).drop 1 = t.drop i := by
        rw [List.drop_drop]
        congr 1
        omega
      rw [hdd] at hroll
      rw [hroll]
      have hrec := krLoop_countP t p P hP n (i + 1) (by omega)
      simp only [Nat.add_sub_cancel] at hrec
      rw [List.range'_succ, List.countP_cons, hrec]
      by_cases hb : calculateHash p P = calculateHash (t.drop i) P ∧ verifyMatch t p i P = 1
      · simp [hb, Nat.add_comm]
      · simp [hb, Nat.add_comm]

/-- C1 core: the Karp-Rabin scanner also computes the specification count. -/
theorem kr_count (t p : List Nat) (T P : Nat) (hP : 1 ≤ P) :
    karpRabinSearch t p T P = matchCount t p T P := by
  simp only [karpRabinSearch]
  unfold matchCount
  by_cases hPT : P ≤ T
  · rw [if_neg (by omega : ¬ P > T), if_pos hPT]
    have hkr := krLoop_countP t p P hP (T - P) 1 le_rfl
    simp only [Nat.sub_self, List.drop_zero] at hkr
    rw [hkr, List.range_eq_range', List.range'_succ, List.countP_cons]
    have hc0 := kr_cond_iff t p P 0
    rw [List.drop_zero] at hc0
    have hcongr : ∀ m, (decide (calculateHash p P = calculateHash (t.drop m) P ∧
          verifyMatch t p m P = 1) = true) ↔
        (decide (∀ j < P, t.getD (m + j) 0 = p.getD j 0) = true) := by
      intro m
      simp only [decide_eq_true_eq]
      exact kr_cond_iff t p P m
    rw [List.countP_congr fun m _ => hcongr m, Nat.add_comm]
    congr 1
    simp only [decide_eq_true_eq, Nat.zero_add]
    have hc0' : (calculateHash p P = calculateHash t P ∧ verifyMatch t p 0 P = 1) ↔
        ∀ k, k < P → t.getD k 0 = p.getD k 0 := by
      rw [hc0]
      constructor
      · intro h k hk
        have hk2 := h k hk
        rwa [Nat.zero_add] at hk2
      · intro h k hk
        rw [Nat.zero_add]
        exact h k hk
    exact if_congr hc0' rfl rfl
  · rw [if_pos (by omega : P > T), if_neg hPT]

/-! ### Equal-length inputs compare as whole lists -/

theorem list_eq_iff_getD (t p : List Nat) (P : Nat) (ht : t.length = P) (hp : p.length = P) :
    (∀ j, j < P → t.getD j 0 = p.getD j 0) ↔ t = p := by
  constructor
  · intro hall
    refine List.ext_getElem (by omega) fun i h1 h2 => ?_
    have hg := hall i (by omega)
    simpa [List.getD_eq_getElem?_getD, List.getElem?_eq_getElem, h1, h2] using hg
  · rintro rfl j hj
    rfl

theorem matchCount_self (t p : List Nat) (P : Nat) (ht : t.length = P) (hp : p.length = P) :
    matchCount t p P P = if t = p then 1 else 0 := by
  unfold matchCount
  rw [if_pos le_rfl, Nat.sub_self]
  have hr : List.range (0 + 1) = [0] := rfl
  rw [hr]
  simp only [List.countP_cons, List.countP_nil, Nat.zero_add, Nat.add_zero,
    decide_eq_true_eq]
  exact if_congr (list_eq_iff_getD t p P ht hp) rfl rfl

/-! ### Primality of the modulus -/

theorem noFacLeaf_sound {n lo len : Nat} (hlo : 1 ≤ lo) (h : noFacLeaf n lo len = true) :
    ∀ d, lo ≤ d → d < lo + len → ¬ d ∣ n := by
  intro d hd1 hd2 hdvd
  unfold noFacLeaf at h
  simp only [Bool.or_eq_true, Bool.and_eq_true, beq_iff_eq, bne_iff_ne, ne_eq] at h
  rcases h with h0 | ⟨h1, hne⟩
  · omega
  · have hdl : d = lo := by omega
    subst hdl
    exact hne (Nat.mod_eq_zero_of_dvd hdvd)

theorem noFac_sound (n : Nat) :
    ∀ (f lo len : Nat), 1 ≤ lo → noFac n f lo len = true →
      ∀ d, lo ≤ d → d < lo + len → ¬ d ∣ n
  | 0, lo, len, hlo, h => by
      rw [noFac] at h
      exact noFacLeaf_sound hlo h
  | f + 1, lo, len, hlo, h => by
      rw [noFac] at h
      by_cases hlen : len ≤ 1
      · rw [if_pos hlen] at h
        exact noFacLeaf_sound hlo h
      · rw [if_neg hlen] at h
        simp only [Bool.and_eq_true] at h
        intro d hd1 hd2 hdvd
        by_cases hw : d < lo + len / 2
        · exact noFac_sound n f lo (len / 2) hlo h.1 d hd1 hw hdvd
        · exact noFac_sound n f (lo + len / 2) (len - len / 2) (by omega) h.2 d
            (by omega) (by omega) hdvd

set_option maxHeartbeats 4000000 in
/-- `2^31 - 1 = 2147483647` is the Mersenne prime M31: it has no divisor
between `2` and its square root (`46340`). -/
theorem M31_prime : Nat.Prime 2147483647 := by
  rw [Nat.prime_def_le_sqrt]
  refine ⟨by norm_num, fun m hm2 hms hdvd => ?_⟩
  have hmm : m * m ≤ 2147483647 := Nat.le_sqrt.mp hms
  have hub : m < 46341 := by
    by_contra hcon
    push_neg at hcon
    have hsq := Nat.mul_le_mul hcon hcon
    omega
  exact noFac_sound 2147483647 16 2 46339 (by omega) (by decide) m hm2 (by omega) hdvd

/-! ### The claims -/

/-- C1: for every text of length `T ≥ 0` and pattern of length `P ≥ 1`,
`bruteForceSearch` and `karpRabinSearch` return the same match count. -/
theorem C1_scanners_agree (text pattern : List Nat) (hP : 1 ≤ pattern.length) :
    bruteForceSearch text pattern text.length pattern.length =
      karpRabinSearch text pattern text.length pattern.length := by
  rw [bf_count, kr_count text pattern text.length pattern.length hP]

theorem C1_scanners_agree_witness :
    1 ≤ ([65] : List Nat).length ∧
      bruteForceSearch [65, 66] [65] ([65, 66] : List Nat).length ([65] : List Nat).length =
        karpRabinSearch [65, 66] [65] ([65, 66] : List Nat).length ([65] : List Nat).length :=
  ⟨by decide, C1_scanners_agree [65, 66] [65] (by decide)⟩

/-- C2: for window length `L ≥ 1` and a buffer `s` of length `L + 1`, the
incremental update `rehash(s[0], calculateHash(s, L), s[L], L)` reproduces
the full recomputation `calculateHash(s+1, L)` on the window shifted right
by one. -/
theorem C2_incremental_matches_full (s : List Nat) (L : Nat) (hL : 1 ≤ L)
    (_hlen : s.length = L + 1) :
    calculateHash (s.drop 1) L = rehash (s.getD 0 0) (calculateHash s L) (s.getD L 0) L :=
  (rehash_roll s L hL).symm

theorem C2_incremental_matches_full_witness :
    (1 ≤ 1 ∧ ([65, 66] : List Nat).length = 1 + 1) ∧
      calculateHash (([65, 66] : List Nat).drop 1) 1 =
        rehash (([65, 66] : List Nat).getD 0 0) (calculateHash [65, 66] 1)
          (([65, 66] : List Nat).getD 1 0) 1 :=
  ⟨⟨le_rfl, by decide⟩, C2_incremental_matches_full [65, 66] 1 le_rfl (by decide)⟩

/-- C3: for every text of length `T ≥ 0` and pattern of length `P ≥ 1`,
`bruteForceSearch` returns exactly the number of starting offsets
`i ∈ [0, T-P]` at which the text window equals the pattern element-wise
(overlaps included). -/
theorem C3_bruteForce_counts_occurrences (text pattern : List Nat)
    (_hP : 1 ≤ pattern.length) :
    bruteForceSearch text pattern text.length pattern.length =
      matchCount text pattern text.length pattern.length :=
  bf_count text pattern text.length pattern.length

theorem C3_bruteForce_counts_occurrences_witness :
    1 ≤ ([65] : List Nat).length ∧
      bruteForceSearch [65, 65] [65] ([65, 65] : List Nat).length ([65] : List Nat).length =
        matchCount [65, 65] [65] ([65, 65] : List Nat).length ([65] : List Nat).length :=
  ⟨by decide, C3_bruteForce_counts_occurrences [65, 65] [65] (by decide)⟩

/-- C4: for every buffer `str` and length `L ≥ 1`, `calculateHash(str, L)`
equals the weighted sum `Σ str[k] * 2^(L-1-k)` over `k < L`, reduced mod
`MOD`, where `str[k]` is the raw numeric character code. -/
theorem C4_calculateHash_weighted_sum (str : List Nat) (L : Nat) (_hL : 1 ≤ L) :
    calculateHash str L =
      (∑ k ∈ Finset.range L, (str.getD k 0 : Int) * 2 ^ (L - 1 - k)) % MOD :=
  calculateHash_spec str L

theorem C4_calculateHash_weighted_sum_witness :
    1 ≤ 2 ∧ calculateHash [65, 66] 2 =
      (∑ k ∈ Finset.range 2, (([65, 66] : List Nat).getD k 0 : Int) * 2 ^ (2 - 1 - k)) % MOD :=
  ⟨by decide, C4_calculateHash_weighted_sum [65, 66] 2 (by decide)⟩

/-- C5: whenever the pattern is longer than the text, both scanners return
0 with no error. -/
theorem C5_long_pattern_returns_zero (text pattern : List Nat)
    (h : text.length < pattern.length) :
    bruteForceSearch text pattern text.length pattern.length = 0 ∧
      karpRabinSearch text pattern text.length pattern.length = 0 := by
  constructor
  · unfold bruteForceSearch
    rw [if_neg (by omega)]
  · unfold karpRabinSearch
    rw [if_pos (by omega : pattern.length > text.length)]

theorem C5_long_pattern_returns_zero_witness :
    ([] : List Nat).length < ([65] : List Nat).length ∧
      (bruteForceSearch [] [65] ([] : List Nat).length ([65] : List Nat).length = 0 ∧
        karpRabinSearch [] [65] ([] : List Nat).length ([65] : List Nat).length = 0) :=
  ⟨by decide, C5_long_pattern_returns_zero [] [65] (by decide)⟩

/-- C6: every fingerprint the core produces lies in `[0, MOD)`:
`calculateHash` for any length, and `rehash` whenever the incoming hash is
in `[0, MOD)`; moreover the modular-subtraction intermediate of `rehash`
is never left negative. -/
theorem C6_fingerprint_in_range (str : List Nat) (L : Nat) (a : Nat) (h : Int) (b : Nat)
    (L2 : Nat) (h0 : 0 ≤ h) (_h1 : h < MOD) :
    (0 ≤ calculateHash str L ∧ calculateHash str L < MOD) ∧
      0 ≤ rehashSub a h L2 ∧ 0 ≤ rehash a h b L2 ∧ rehash a h b L2 < MOD :=
  ⟨calculateHash_bounds str L,
   (rehashSub_spec a h L2 h0).1,
   (rehash_bounds a h b L2 h0).1,
   (rehash_bounds a h b L2 h0).2⟩

theorem C6_fingerprint_in_range_witness :
    ((0 : Int) ≤ 0 ∧ (0 : Int) < MOD) ∧
      ((0 ≤ calculateHash [65] 1 ∧ calculateHash [65] 1 < MOD) ∧
        0 ≤ rehashSub 65 0 1 ∧ 0 ≤ rehash 65 0 66 1 ∧ rehash 65 0 66 1 < MOD) :=
  ⟨⟨le_rfl, by decide⟩, C6_fingerprint_in_range [65] 1 65 0 66 1 le_rfl (by decide)⟩

/-- C7 (counterexample): the claim asserts that `MOD` is not prime, but
`MOD = INT_MAX = 2147483647 = 2^31 - 1` is the Mersenne prime M31, so the
"not a prime number" part of the claim is false. -/
theorem C7_MOD_prime_counterexample : Nat.Prime MOD.toNat := by
  have hv : MOD.toNat = 2147483647 := rfl
  rw [hv]
  exact M31_prime

/-- C7 (amended): `MOD` is the maximum positive representable value of a
fixed-width (32-bit) signed integer type, `2^31 - 1`, and it is a prime
number. -/
theorem C7_MOD_value_amended : MOD = 2 ^ 31 - 1 ∧ Nat.Prime MOD.toNat :=
  ⟨by decide, by
    have hv : MOD.toNat = 2147483647 := rfl
    rw [hv]
    exact M31_prime⟩

/-- C8: when pattern length equals text length (both at least 1), each
scanner returns 1 if the text equals the pattern element-wise and 0
otherwise. -/
theorem C8_equal_length_indicator (t p : List Nat) (P : Nat)
    (ht : t.length = P) (hp : p.length = P) (hP : 1 ≤ P) :
    bruteForceSearch t p P P = (if t = p then 1 else 0) ∧
      karpRabinSearch t p P P = (if t = p then 1 else 0) :=
  ⟨by rw [bf_count, matchCount_self t p P ht hp],
   by rw [kr_count t p P P hP, matchCount_self t p P ht hp]⟩

theorem C8_equal_length_indicator_witness :
    (([65] : List Nat).length = 1 ∧ ([66] : List Nat).length = 1 ∧ 1 ≤ 1) ∧
      (bruteForceSearch [65] [66] 1 1 = (if ([65] : List Nat) = [66] then 1 else 0) ∧
        karpRabinSearch [65] [66] 1 1 = (if ([65] : List Nat) = [66] then 1 else 0)) :=
  ⟨⟨rfl, rfl, le_rfl⟩, C8_equal_length_indicator [65] [66] 1 rfl rfl le_rfl⟩

/-- C9: on text "AAAA" (bytes 65,65,65,65) and pattern "AA" (65,65), both
scanners return 3, counting the overlapping occurrences at offsets
0, 1, 2. -/
theorem C9_overlapping_AA_scenario :
    bruteForceSearch [65, 65, 65, 65] [65, 65] 4 2 = 3 ∧
      karpRabinSearch [65, 65, 65, 65] [65, 65] 4 2 = 3 := by decide

/-- C10: with `patternLength = 0` (violating the `P ≥ 1` precondition),
`bruteForceSearch` returns `textLength + 1` (every candidate offset
matches vacuously), and there are such inputs on which the two scanners
return different counts. -/
theorem C10_empty_pattern_divergence :
    (∀ t p : List Nat, bruteForceSearch t p t.length 0 = t.length + 1) ∧
      ∃ t p : List Nat, bruteForceSearch t p t.length 0 ≠ karpRabinSearch t p t.length 0 := by
  constructor
  · intro t p
    unfold bruteForceSearch
    rw [if_pos (Nat.zero_le _), Nat.sub_zero]
    have hall : ∀ n i, bfLoop t p 0 n i = n := by
      intro n
      induction n with
      | zero => intro i; rfl
      | succ n ih =>
          intro i
          rw [bfLoop, bfWhile]
          simp [ih, Nat.add_comm]
    exact hall (t.length + 1) 0
  · exact ⟨[65], [], by decide⟩
